/-
Verification of the MemSentry tracking allocator, heap graph and lock-free
pool family against its specification.

The development shallowly embeds the C++ sources:
  * `src/include/mem_sentry/constants.h`     — integrity constants
  * `src/include/mem_sentry/alloc_header.h`  — per-block metadata record
  * `src/src/mem_sentry.cc`                  — allocate / allocate_aligned / deallocate
  * `src/src/heap.cc`, `src/include/mem_sentry/heap.h` — arena bookkeeping and DFS
  * `src/include/mem_pools/pool.h`           — SPSC ring pool
  * `src/include/mem_pools/chain.h`          — growable pool chain

Machine integers are modelled as `Nat`/`Int` with explicit reductions
(`% 2^32` for `uint32_t`, `% 2^8` for `uint8_t`, `% 2^64` for `size_t` /
`uintptr_t`, two's-complement wrap for `int`) at exactly the points where
the C++ performs a conversion or defined wraparound.
-/
import Mathlib

namespace MemSentry

/-! ### Constants (`constants.h`) -/

/-- Embeds `MEMSYSTEM_SIGNATURE` — signature value for valid active memory. -/
def MEMSYSTEM_SIGNATURE : Nat := 0xDEADC0DE

/-- Embeds `MEMSYSTEM_FREED_SIGNATURE` — signature for memory that has already been freed. -/
def MEMSYSTEM_FREED_SIGNATURE : Nat := 0xFEDC0DE

/-- Embeds `MEMSYSTEM_ENDMARKER` — end-marker word written right after the user payload. -/
def MEMSYSTEM_ENDMARKER : Nat := 0xEEDC0DE

/-- Modulus of `uint32_t` (`m_Size`, `m_Signature`, `m_AllocId`). -/
def UINT32_MOD : Nat := 2 ^ 32

/-- Modulus of `uint8_t` (`m_Alignment`). -/
def UINT8_MOD : Nat := 2 ^ 8

/-- Modulus of `size_t` / `uintptr_t` on the 64-bit target. -/
def UINTPTR_MOD : Nat := 2 ^ 64

/-- Embeds `sizeof(MEM_SENTRY::alloc_header::AllocHeader)` — the header's own doc
comment fixes the layout at 48 bytes (4 pointers + 13 bytes of integers +
3 bytes of padding). -/
def header_size : Nat := 48

/-! ### Alloc header (`alloc_header.h`)

The doubly-linked-list pointers `p_Next`/`p_Prev` are not fields of the
embedded record; the owning heap's tracking list is modelled as a `List`
of headers instead (see `HeapState`). -/

/-- The per-allocation metadata record.  `m_Size` is a `uint32_t`,
`m_Alignment` a `uint8_t`; the values stored come from the conversions in
`set_alloc_header`. -/
structure AllocHeader where
  p_Heap : Nat
  m_Size : Nat
  m_Alignment : Nat
  m_Signature : Nat
  m_AllocId : Nat
  p_OriginalAddress : Nat
deriving DecidableEq, Repr

/-- Embeds `set_alloc_header` (`mem_sentry.cc:23`): populate the header.  The
`size_t → uint32_t` store of `m_Size` and the `size_t → uint8_t` store of
`m_Alignment` are the C++ narrowing conversions, which are defined to
reduce modulo `2^32` and `2^8` respectively. -/
def set_alloc_header (size alignment originalAddr heapId allocId : Nat) : AllocHeader :=
  { p_Heap := heapId
    m_Size := size % UINT32_MOD
    m_Alignment := alignment % UINT8_MOD
    m_Signature := MEMSYSTEM_SIGNATURE
    m_AllocId := allocId
    p_OriginalAddress := originalAddr }

/-! ### Deallocation (`sentry_deallocate`, `mem_sentry.cc:147`)

The function receives the user pointer; `none` models a null pointer.  For
a non-null pointer the observable inputs are the header the pointer backs
onto and the 32-bit word currently sitting at `pMem + m_Size` (the end
marker location).  An `assert` failure is a contract violation that aborts
before anything further runs; the outcome records the header signature
observable at that instant. -/

/-- Result of `sentry_deallocate`.
  * `noop` — null pointer, nothing happens.
  * `violation sigAtAbort` — an `assert` fired; the raw block was NOT
    released and the heap was NOT notified; `sigAtAbort` is the value of
    `m_Signature` at the moment of the abort.
  * `freed sigBeforeFree rawFreed` — both checks passed; the heap was
    notified via `RemoveAlloc` and `free(p_OriginalAddress)` ran;
    `sigBeforeFree` is the signature immediately before the raw release. -/
inductive DeallocOutcome where
  | noop
  | violation (sigAtAbort : Nat)
  | freed (sigBeforeFree : Nat) (rawFreed : Nat)
deriving DecidableEq, Repr

/-- Embeds `sentry_deallocate`, following the source order exactly: null check,
signature `assert`, flip of the signature to `MEMSYSTEM_FREED_SIGNATURE`,
end-marker `assert`, then `RemoveAlloc` and `free`. -/
def sentry_deallocate (pMem : Option (AllocHeader × Nat)) : DeallocOutcome :=
  match pMem with
  | none => .noop
  | some (hdr, endMarkerWord) =>
    if hdr.m_Signature ≠ MEMSYSTEM_SIGNATURE then
      .violation hdr.m_Signature
    else
      -- mark as freed memory (happens BEFORE the end-marker assert)
      let hdr2 : AllocHeader := { hdr with m_Signature := MEMSYSTEM_FREED_SIGNATURE }
      if endMarkerWord ≠ MEMSYSTEM_ENDMARKER then
        .violation hdr2.m_Signature
      else
        .freed hdr2.m_Signature hdr2.p_OriginalAddress

/-- A live header used as concrete input in several checks below. -/
def hdrC1 : AllocHeader :=
  { p_Heap := 0, m_Size := 4, m_Alignment := 0,
    m_Signature := MEMSYSTEM_SIGNATURE, m_AllocId := 1, p_OriginalAddress := 100 }

/-- C1 counterexample: on an end-marker mismatch (word `0` instead of
`MEMSYSTEM_ENDMARKER`) the deallocation does fail with a contract
violation, but the header signature observable at the abort is already
`MEMSYSTEM_FREED_SIGNATURE`: the flip to FREED is not reserved to the
success path, contradicting the claim that only on success the signature
is flipped. -/
theorem deallocate_endmarker_mismatch_signature_already_freed :
    sentry_deallocate (some (hdrC1, 0)) = .violation MEMSYSTEM_FREED_SIGNATURE
    ∧ MEMSYSTEM_FREED_SIGNATURE ≠ MEMSYSTEM_SIGNATURE := by
  exact ⟨by decide, by decide⟩

/-- C1 (amended): `sentry_deallocate` is a no-op on null.  A signature
mismatch fails with a contract violation with the header untouched.  When
the signature is valid it is flipped to FREED *before* the end marker is
checked: an end-marker mismatch still fails without releasing the block or
notifying the heap, but with the signature already flipped.  On success
the signature equals FREED immediately before the raw base address is
returned to the system allocator, the owning heap is notified and the raw
base address is freed. -/
theorem deallocate_validation_order (hdr : AllocHeader) (em : Nat) :
    sentry_deallocate none = .noop
    ∧ (hdr.m_Signature ≠ MEMSYSTEM_SIGNATURE →
        sentry_deallocate (some (hdr, em)) = .violation hdr.m_Signature)
    ∧ (hdr.m_Signature = MEMSYSTEM_SIGNATURE → em ≠ MEMSYSTEM_ENDMARKER →
        sentry_deallocate (some (hdr, em)) = .violation MEMSYSTEM_FREED_SIGNATURE)
    ∧ (hdr.m_Signature = MEMSYSTEM_SIGNATURE → em = MEMSYSTEM_ENDMARKER →
        sentry_deallocate (some (hdr, em))
          = .freed MEMSYSTEM_FREED_SIGNATURE hdr.p_OriginalAddress) := by
  refine ⟨rfl, ?_, ?_, ?_⟩
  · intro h; simp [sentry_deallocate, h]
  · intro h1 h2; simp [sentry_deallocate, h1, h2]
  · intro h1 h2; simp [sentry_deallocate, h1, h2]

/-- Witness for `deallocate_validation_order` at the concrete live header
`hdrC1` with a correct end marker. -/
theorem deallocate_validation_order_witness :
    sentry_deallocate (some (hdrC1, MEMSYSTEM_ENDMARKER))
      = .freed MEMSYSTEM_FREED_SIGNATURE 100 :=
  (deallocate_validation_order hdrC1 MEMSYSTEM_ENDMARKER).2.2.2 rfl rfl

/-! ### 32-bit `int` wraparound

`m_total` is a 32-bit `int` and `m_NextAllocId` a 32-bit `atomic<int>`.
The updates both perform are defined modular arithmetic: the compound
assignments `int += uint32_t` / `int -= uint32_t` convert the `int`
operand to `uint32_t` (usual arithmetic conversions), operate modulo
`2^32`, and convert the result back to `int` (two's complement); atomic
`fetch_add` on a signed type likewise wraps.  `int32_wrap` maps an
integer to its unique representative in `[-2^31, 2^31)` modulo `2^32`. -/

/-- Two's-complement wrap of an integer into the 32-bit `int` range. -/
def int32_wrap (x : Int) : Int := (x + 2 ^ 31) % 2 ^ 32 - 2 ^ 31

theorem int32_wrap_emod (z : Int) : (int32_wrap z - z) % 2 ^ 32 = 0 := by
  unfold int32_wrap
  omega

theorem int32_wrap_congr {x y : Int} (h : (x - y) % 2 ^ 32 = 0) :
    int32_wrap x = int32_wrap y := by
  unfold int32_wrap
  omega

theorem int32_wrap_eq_self {x : Int} (hlo : -2 ^ 31 ≤ x) (hhi : x < 2 ^ 31) :
    int32_wrap x = x := by
  unfold int32_wrap
  omega

/-! ### Heap bookkeeping (`heap.cc`, `heap.h`)

A heap's observable state (for the bookkeeping claims) is its byte
counter `m_total` — the source's 32-bit `int`, whose updates are the
defined modular round trip through `uint32_t` described above, modelled
with `int32_wrap` — and its doubly-linked tracking list, modelled as a
`List` ordered head to tail.  The reporter hook does not change the
counter or the list and is outside the claims, so it is not modelled. -/

structure HeapState where
  m_total : Int
  list : List AllocHeader
deriving Repr

/-- Embeds `Heap::Heap` (`heap.h:98`): counter `0`, empty list. -/
def emptyHeap : HeapState := { m_total := 0, list := [] }

/-- Embeds `Heap::addAllocLL` (`heap.cc:8`): both the empty-list branch and the
tail-append branch amount to appending the node at the tail. -/
def addAllocLL (l : List AllocHeader) (a : AllocHeader) : List AllocHeader :=
  l ++ [a]

/-- Embeds `Heap::removeAllocLL` (`heap.cc:33`).  The boolean result mirrors the
source's return value.  The four source branches:
  * empty list — return `false`, list unchanged;
  * `p_HeadList == p_TailList` (single node) — the source clears the list
    WITHOUT comparing `alloc` to that node;
  * `alloc` is the head — list becomes `alloc->p_Next` onward;
  * `alloc` is the tail — the last node is dropped;
  * otherwise the source splices `alloc` out via its own `p_Prev`/`p_Next`
    pointers, which (for a well-formed list containing `alloc`) is erasure
    of `alloc`'s occurrence; the embedding is faithful whenever
    `alloc ∈ l`, the only situation the allocator layer produces. -/
def removeAllocLL (l : List AllocHeader) (a : AllocHeader) : Bool × List AllocHeader :=
  match l with
  | [] => (false, [])
  | [_] => (true, [])
  | x :: y :: t =>
    if a = x then
      (true, y :: t)
    else if a = (y :: t).getLast (List.cons_ne_nil y t) then
      (true, x :: (y :: t).dropLast)
    else
      (true, x :: (y :: t).erase a)

/-- Embeds `Heap::AddAllocation` (`heap.cc:92`): `m_total += m_Size + m_Alignment`
and append to the tracking list.  The delta `m_Size + m_Alignment` is
`uint32_t` arithmetic (wraps modulo `2^32`), and the `int += uint32_t`
compound assignment accumulates it into the 32-bit counter modularly
(`int32_wrap`). -/
def AddAllocation (h : HeapState) (a : AllocHeader) : HeapState :=
  { m_total := int32_wrap (h.m_total + (((a.m_Size + a.m_Alignment) % UINT32_MOD : Nat) : Int))
    list := addAllocLL h.list a }

/-- Embeds `Heap::RemoveAlloc` (`heap.cc:106`): `m_total -= m_Size + m_Alignment`
and unlink from the tracking list.  The same modular `uint32_t` delta and
32-bit `int` round trip as in `AddAllocation`, subtracting. -/
def RemoveAlloc (h : HeapState) (a : AllocHeader) : HeapState :=
  { m_total := int32_wrap (h.m_total - (((a.m_Size + a.m_Alignment) % UINT32_MOD : Nat) : Int))
    list := (removeAllocLL h.list a).2 }

/-- Embeds `Heap::GetTotal` (`heap.h:143`). -/
def GetTotal (h : HeapState) : Int := h.m_total

/-- The counting loop of `Heap::CountAllocations` (`heap.cc:78`). -/
def countLoop : List AllocHeader → Nat
  | [] => 0
  | _ :: t => countLoop t + 1

/-- Embeds `Heap::CountAllocations`. -/
def CountAllocations (h : HeapState) : Nat := countLoop h.list

/-- Bytes a header contributes to its heap's counter. -/
def headerBytes (a : AllocHeader) : Int := (a.m_Size : Int) + (a.m_Alignment : Int)

/-- Sum of `m_Size + m_Alignment` over a tracking list. -/
def liveBytes (l : List AllocHeader) : Int := (l.map headerBytes).sum

/-- One completed operation on a heap. -/
inductive HeapOp where
  | alloc (a : AllocHeader)
  | dealloc (a : AllocHeader)
deriving Repr

/-- Apply a completed allocate/deallocate to the heap state. -/
def applyOp (h : HeapState) : HeapOp → HeapState
  | .alloc a => AddAllocation h a
  | .dealloc a => RemoveAlloc h a

/-- A sequence of completed operations is valid when every deallocation
removes a header that is currently in the tracking list (the allocator
layer only ever removes headers it previously added). -/
def validOps : HeapState → List HeapOp → Prop
  | _, [] => True
  | h, .alloc a :: rest => validOps (applyOp h (.alloc a)) rest
  | h, .dealloc a :: rest => a ∈ h.list ∧ validOps (applyOp h (.dealloc a)) rest

/-- Run a sequence of completed operations. -/
def runOps (h : HeapState) (ops : List HeapOp) : HeapState := ops.foldl applyOp h

/-- The bookkeeping invariant of a heap: the 32-bit counter holds the
two's-complement wrap of the live-byte sum, and the count is the list
length. -/
def heapInv (h : HeapState) : Prop :=
  GetTotal h = int32_wrap (liveBytes h.list) ∧ CountAllocations h = h.list.length

theorem countLoop_eq_length (l : List AllocHeader) : countLoop l = l.length := by
  induction l with
  | nil => rfl
  | cons x t ih => simp [countLoop, ih]

theorem liveBytes_append (l₁ l₂ : List AllocHeader) :
    liveBytes (l₁ ++ l₂) = liveBytes l₁ + liveBytes l₂ := by
  simp [liveBytes]

theorem liveBytes_cons (x : AllocHeader) (l : List AllocHeader) :
    liveBytes (x :: l) = headerBytes x + liveBytes l := by
  simp [liveBytes]

theorem liveBytes_erase {a : AllocHeader} {l : List AllocHeader} (ha : a ∈ l) :
    liveBytes (l.erase a) = liveBytes l - headerBytes a := by
  have hperm : List.Perm l (a :: l.erase a) := List.perm_cons_erase ha
  have hsum := (hperm.map headerBytes).sum_eq
  simp only [List.map_cons, List.sum_cons] at hsum
  simp only [liveBytes]
  omega

theorem removeAllocLL_liveBytes {a : AllocHeader} {l : List AllocHeader} (ha : a ∈ l) :
    liveBytes (removeAllocLL l a).2 = liveBytes l - headerBytes a := by
  match l with
  | [] => cases ha
  | [x] =>
    have hax : a = x := by simpa using ha
    simp [removeAllocLL, liveBytes, hax]
  | x :: y :: t =>
    simp only [removeAllocLL]
    by_cases h1 : a = x
    · rw [if_pos h1]
      subst h1
      simp only [liveBytes_cons]
      ring
    · rw [if_neg h1]
      by_cases h2 : a = (y :: t).getLast (List.cons_ne_nil y t)
      · rw [if_pos h2]
        have hsplit : (y :: t).dropLast ++ [(y :: t).getLast (List.cons_ne_nil y t)] = y :: t :=
          List.dropLast_append_getLast (List.cons_ne_nil y t)
        have hyt : liveBytes (y :: t) = liveBytes (y :: t).dropLast + headerBytes a := by
          conv_lhs => rw [← hsplit]
          rw [liveBytes_append, ← h2]
          simp [liveBytes]
        rw [liveBytes_cons, liveBytes_cons, hyt]
        ring
      · rw [if_neg h2]
        have hmem : a ∈ y :: t := by
          rcases ha with _ | h
          · exact absurd rfl h1
          · assumption
        rw [liveBytes_cons, liveBytes_cons, liveBytes_erase hmem]
        ring

theorem removeAllocLL_length {a : AllocHeader} {l : List AllocHeader} (ha : a ∈ l) :
    ((removeAllocLL l a).2).length + 1 = l.length := by
  match l with
  | [] => cases ha
  | [x] => simp [removeAllocLL]
  | x :: y :: t =>
    simp only [removeAllocLL]
    by_cases h1 : a = x
    · rw [if_pos h1]; simp
    · rw [if_neg h1]
      by_cases h2 : a = (y :: t).getLast (List.cons_ne_nil y t)
      · rw [if_pos h2]; simp
      · rw [if_neg h2]
        have hmem : a ∈ y :: t := by
          rcases ha with _ | h
          · exact absurd rfl h1
          · assumption
        have := List.length_erase_of_mem hmem
        simp only [List.length_cons] at this ⊢
        omega

theorem liveBytes_nonneg (l : List AllocHeader) : 0 ≤ liveBytes l := by
  induction l with
  | nil => simp [liveBytes]
  | cons x t ih =>
    rw [liveBytes_cons]
    have hx : (0 : Int) ≤ headerBytes x := by
      simp only [headerBytes]
      omega
    omega

theorem headerDelta_emod (a : AllocHeader) :
    ((((a.m_Size + a.m_Alignment) % UINT32_MOD : Nat) : Int) - headerBytes a) % 2 ^ 32 = 0 := by
  have h : (((a.m_Size + a.m_Alignment) % UINT32_MOD : Nat) : Int)
      = ((a.m_Size : Int) + (a.m_Alignment : Int)) % 2 ^ 32 := by
    simp only [UINT32_MOD]
    push_cast
    ring_nf
  rw [h]
  simp only [headerBytes]
  omega

theorem heapInv_add (h : HeapState) (a : AllocHeader) (hinv : heapInv h) :
    heapInv (AddAllocation h a) := by
  obtain ⟨ht, hc⟩ := hinv
  constructor
  · show int32_wrap (h.m_total + (((a.m_Size + a.m_Alignment) % UINT32_MOD : Nat) : Int))
      = int32_wrap (liveBytes (addAllocLL h.list a))
    have h1 : liveBytes (addAllocLL h.list a) = liveBytes h.list + headerBytes a := by
      simp [addAllocLL, liveBytes_append, liveBytes]
    rw [h1]
    apply int32_wrap_congr
    have hδ := headerDelta_emod a
    have hL := int32_wrap_emod (liveBytes h.list)
    simp only [GetTotal] at ht
    rw [ht]
    omega
  · simp only [CountAllocations, AddAllocation, addAllocLL, countLoop_eq_length] at *

theorem heapInv_remove (h : HeapState) (a : AllocHeader) (hinv : heapInv h)
    (ha : a ∈ h.list) : heapInv (RemoveAlloc h a) := by
  obtain ⟨ht, hc⟩ := hinv
  constructor
  · show int32_wrap (h.m_total - (((a.m_Size + a.m_Alignment) % UINT32_MOD : Nat) : Int))
      = int32_wrap (liveBytes (removeAllocLL h.list a).2)
    rw [removeAllocLL_liveBytes ha]
    apply int32_wrap_congr
    have hδ := headerDelta_emod a
    have hL := int32_wrap_emod (liveBytes h.list)
    simp only [GetTotal] at ht
    rw [ht]
    omega
  · simp only [CountAllocations, RemoveAlloc, countLoop_eq_length] at *

theorem heapInv_runOps (ops : List HeapOp) :
    ∀ h : HeapState, heapInv h → validOps h ops → heapInv (runOps h ops) := by
  induction ops with
  | nil => intro h hinv _; exact hinv
  | cons op rest ih =>
    intro h hinv hvalid
    match op with
    | .alloc a =>
      exact ih _ (heapInv_add h a hinv) hvalid
    | .dealloc a =>
      exact ih _ (heapInv_remove h a hinv hvalid.1) hvalid.2

/-- A live header whose payload is 2^31 bytes — large but realisable on
the 64-bit target, and a defined-behaviour input. -/
def hdr2G : AllocHeader := set_alloc_header (2 ^ 31) 0 0 0 1

/-- C2 counterexample: a single completed allocation of `2^31` bytes on a
fresh heap is a valid operation sequence after which the 32-bit counter
reads `-2^31` while the live-byte sum is `2^31`: the `int += uint32_t`
update wraps, so `GetTotal` does NOT equal the sum of `size + alignment`
over the tracking list. -/
theorem heap_total_wraps_at_2pow31 :
    validOps emptyHeap [HeapOp.alloc hdr2G]
    ∧ GetTotal (runOps emptyHeap [HeapOp.alloc hdr2G]) = -(2 ^ 31)
    ∧ liveBytes (runOps emptyHeap [HeapOp.alloc hdr2G]).list = 2 ^ 31
    ∧ (-(2 ^ 31) : Int) ≠ 2 ^ 31 := by
  exact ⟨trivial, by decide, by decide, by decide⟩

/-- C2 (amended): over every valid sequence of completed
allocate/deallocate operations starting from a fresh heap, `GetTotal`
equals the two's-complement 32-bit wrap of the sum of
`m_Size + m_Alignment` over the headers currently in the tracking list —
hence the exact sum whenever that sum is below `2^31` — and
`CountAllocations` equals the list length; and an `AddAllocation`
followed by a `RemoveAlloc` of the same header returns both counters to
their pre-allocation values whenever the counter is within the 32-bit
`int` range (as it is in every reachable state). -/
theorem heap_total_matches_live_headers_mod32 :
    (∀ ops : List HeapOp, validOps emptyHeap ops →
      GetTotal (runOps emptyHeap ops) = int32_wrap (liveBytes (runOps emptyHeap ops).list)
      ∧ CountAllocations (runOps emptyHeap ops) = (runOps emptyHeap ops).list.length)
    ∧ (∀ ops : List HeapOp, validOps emptyHeap ops →
        liveBytes (runOps emptyHeap ops).list < 2 ^ 31 →
        GetTotal (runOps emptyHeap ops) = liveBytes (runOps emptyHeap ops).list)
    ∧ (∀ (h : HeapState) (a : AllocHeader),
        -2 ^ 31 ≤ GetTotal h → GetTotal h < 2 ^ 31 →
        GetTotal (RemoveAlloc (AddAllocation h a) a) = GetTotal h
        ∧ CountAllocations (RemoveAlloc (AddAllocation h a) a) = CountAllocations h) := by
  have hmain : ∀ ops : List HeapOp, validOps emptyHeap ops → heapInv (runOps emptyHeap ops) := by
    intro ops hvalid
    refine heapInv_runOps ops emptyHeap ⟨?_, rfl⟩ hvalid
    show (0 : Int) = int32_wrap (liveBytes ([] : List AllocHeader))
    decide
  refine ⟨fun ops hv => hmain ops hv, ?_, ?_⟩
  · intro ops hv hlt
    have hinv := (hmain ops hv).1
    rw [hinv]
    refine int32_wrap_eq_self ?_ hlt
    have := liveBytes_nonneg (runOps emptyHeap ops).list
    omega
  · intro h a hlo hhi
    constructor
    · show int32_wrap
          (int32_wrap (h.m_total + (((a.m_Size + a.m_Alignment) % UINT32_MOD : Nat) : Int))
            - (((a.m_Size + a.m_Alignment) % UINT32_MOD : Nat) : Int))
        = h.m_total
      have h1 := int32_wrap_emod
        (h.m_total + (((a.m_Size + a.m_Alignment) % UINT32_MOD : Nat) : Int))
      calc int32_wrap
            (int32_wrap (h.m_total + (((a.m_Size + a.m_Alignment) % UINT32_MOD : Nat) : Int))
              - (((a.m_Size + a.m_Alignment) % UINT32_MOD : Nat) : Int))
          = int32_wrap h.m_total := int32_wrap_congr (by omega)
        _ = h.m_total := int32_wrap_eq_self hlo hhi
    · have hmem : a ∈ (AddAllocation h a).list := by
        simp [AddAllocation, addAllocLL]
      simp only [CountAllocations, countLoop_eq_length]
      have := removeAllocLL_length hmem
      simp only [RemoveAlloc]
      simp only [AddAllocation, addAllocLL] at this ⊢
      simp at this
      omega

/-- Witness for `heap_total_matches_live_headers_mod32`: the sequence
alloc/dealloc of `hdrC1` on a fresh heap is valid, lands back on counter
`0` and count `0`, and the round trip from the fresh heap restores the
counter. -/
theorem heap_total_matches_live_headers_mod32_witness :
    GetTotal (runOps emptyHeap [HeapOp.alloc hdrC1, HeapOp.dealloc hdrC1]) = 0
    ∧ CountAllocations (runOps emptyHeap [HeapOp.alloc hdrC1, HeapOp.dealloc hdrC1]) = 0
    ∧ GetTotal (RemoveAlloc (AddAllocation emptyHeap hdrC1) hdrC1) = GetTotal emptyHeap := by
  have hvalid : validOps emptyHeap [HeapOp.alloc hdrC1, HeapOp.dealloc hdrC1] := by
    refine ⟨?_, trivial⟩
    simp [applyOp, AddAllocation, addAllocLL, emptyHeap]
  have hmain := heap_total_matches_live_headers_mod32.1
    [HeapOp.alloc hdrC1, HeapOp.dealloc hdrC1] hvalid
  have hrt := (heap_total_matches_live_headers_mod32.2.2 emptyHeap hdrC1
    (by decide) (by decide)).1
  refine ⟨?_, ?_, hrt⟩
  · rw [hmain.1]; decide
  · rw [hmain.2]; decide

/-- C4 counterexample: two aligned allocations inside the claim's scope
("any power of two ≥ pointer size") refute "increases by exactly s + A".
Size 8 with alignment 256 increases the fresh heap's counter by 8, not
8 + 256: the header stores the alignment in the `uint8_t` field
`m_Alignment` (`alloc_header.h:52`), narrowing 256 to 0.  Size `2^31` with
alignment 128 leaves the counter at `-2^31 + 128`, not `2^31 + 128`: the
32-bit `int` counter wraps. -/
theorem aligned_byte_counter_truncates_at_256 :
    GetTotal (AddAllocation emptyHeap (set_alloc_header 8 256 1000 0 1)) = 8
    ∧ (8 : Int) ≠ 8 + 256
    ∧ (256 : Nat) = 2 ^ 8
    ∧ GetTotal (AddAllocation emptyHeap (set_alloc_header (2 ^ 31) 128 0 0 1)) = -(2 ^ 31) + 128
    ∧ (-(2 ^ 31) + 128 : Int) ≠ 2 ^ 31 + 128 := by
  exact ⟨by decide, by decide, by decide, by decide, by decide⟩

/-- C4 (amended): an aligned allocation of size `s` with alignment `A`
updates the owning heap's 32-bit byte counter by the two's-complement
wrapped addition of `((s mod 2^32) + (A mod 256)) mod 2^32`: the header
narrows the size to `uint32_t` and the alignment to `uint8_t`, the delta
`m_Size + m_Alignment` is `uint32_t` arithmetic, and the counter is a
32-bit `int` accumulated modularly.  For `s < 2^31` and `A ≤ 128` (every
power-of-two alignment that fits the 8-bit field), with the counter
staying inside the `int` range, the increase is exactly `s + A`; a single
size-128/alignment-128 allocation on a fresh heap makes the heap total
256. -/
theorem aligned_byte_counter_delta (h : HeapState) (s A origAddr heapId allocId : Nat) :
    GetTotal (AddAllocation h (set_alloc_header s A origAddr heapId allocId))
      = int32_wrap (GetTotal h + (((s % UINT32_MOD + A % UINT8_MOD) % UINT32_MOD : Nat) : Int))
    ∧ (s < 2 ^ 31 → A ≤ 128 → -2 ^ 31 ≤ GetTotal h →
        GetTotal h + (s : Int) + (A : Int) < 2 ^ 31 →
        GetTotal (AddAllocation h (set_alloc_header s A origAddr heapId allocId))
          = GetTotal h + (s : Int) + (A : Int)) := by
  constructor
  · rfl
  · intro hs hA hlo hhi
    show int32_wrap
        (h.m_total + (((s % UINT32_MOD + A % UINT8_MOD) % UINT32_MOD : Nat) : Int))
      = h.m_total + (s : Int) + (A : Int)
    have h1 : s % UINT32_MOD = s := Nat.mod_eq_of_lt (by unfold UINT32_MOD; omega)
    have h2 : A % UINT8_MOD = A := Nat.mod_eq_of_lt (by unfold UINT8_MOD; omega)
    have h3 : (s + A) % UINT32_MOD = s + A := Nat.mod_eq_of_lt (by unfold UINT32_MOD; omega)
    rw [h1, h2, h3]
    have hcast : ((s + A : Nat) : Int) = (s : Int) + (A : Int) := by push_cast; ring
    rw [hcast]
    have hassoc : h.m_total + ((s : Int) + (A : Int)) = h.m_total + (s : Int) + (A : Int) := by
      ring
    rw [hassoc]
    refine int32_wrap_eq_self ?_ hhi
    simp only [GetTotal] at hlo
    omega

/-- Witness for `aligned_byte_counter_delta`: size 128, alignment 128 on a
fresh heap yields heap total 256. -/
theorem aligned_byte_counter_delta_witness :
    GetTotal (AddAllocation emptyHeap (set_alloc_header 128 128 0 0 1)) = 256 := by
  have h := (aligned_byte_counter_delta emptyHeap 128 128 0 0 1).2
    (by norm_num) (by norm_num) (by decide) (by decide)
  rw [h]
  decide

/-! ### Allocation id counter (`Heap::GetNextId`, `heap.h:136`)

`m_NextAllocId` is a `std::atomic<int>`, initialised to 1 by the
constructor.  `fetch_add(1, relaxed)` returns the previous value and
stores the incremented value; atomic signed arithmetic is defined by the
C++ standard to wrap in two's complement, modelled by `int32_wrap`
(defined with the heap counter above). -/

/-- Embeds `Heap::GetNextId`: returns the counter's current value, then stores
the wrapped increment.  The pair is (returned id, new counter value). -/
def GetNextId (c : Int) : Int × Int := (c, int32_wrap (c + 1))

/-- Counter value after `k` calls to `GetNextId` on a fresh heap
(`Heap::Heap` sets `m_NextAllocId = 1`). -/
def idState : Nat → Int
  | 0 => 1
  | k + 1 => (GetNextId (idState k)).2

/-- The id handed to the `(k+1)`-th allocation on one heap (0-indexed). -/
def idAt (k : Nat) : Int := (GetNextId (idState k)).1

theorem int32_wrap_add_one (x : Int) :
    int32_wrap (int32_wrap x + 1) = int32_wrap (x + 1) := by
  unfold int32_wrap
  omega

theorem idState_closed (k : Nat) : idState k = int32_wrap (1 + (k : Int)) := by
  induction k with
  | zero =>
    show (1 : Int) = int32_wrap (1 + ((0 : Nat) : Int))
    norm_num [int32_wrap]
  | succ n ih =>
    show (GetNextId (idState n)).2 = int32_wrap (1 + ((n + 1 : Nat) : Int))
    rw [GetNextId]
    simp only [ih, int32_wrap_add_one]
    push_cast
    ring_nf

theorem idAt_closed (k : Nat) : idAt k = int32_wrap (1 + (k : Int)) := idState_closed k

/-- C10 counterexample: the id returned for the very first allocation (1)
is returned again for allocation number `2^32 + 1`: the 32-bit counter has
wrapped, so the same id IS handed out twice by one heap. -/
theorem alloc_id_wraps_after_2pow32 :
    idAt 0 = 1 ∧ idAt (2 ^ 32) = 1 ∧ (0 : Nat) ≠ 2 ^ 32 := by
  refine ⟨?_, ?_, by norm_num⟩
  · rw [idAt_closed]
    norm_num [int32_wrap]
  · rw [idAt_closed]
    norm_num [int32_wrap]

/-- C10 (amended): the id counter starts at 1 and `GetNextId` returns the
current value before incrementing, so successive allocations on one heap
receive the consecutive ids 1, 2, 3, … as long as the 32-bit counter has
not wrapped (fewer than `2^32` allocations); within any window of `2^32`
allocations no id is returned twice. -/
theorem alloc_ids_consecutive_before_wrap :
    (∀ k : Nat, (k : Int) + 2 ≤ 2 ^ 31 → idAt k = (k : Int) + 1)
    ∧ (∀ j k : Nat, j < k → k < j + 2 ^ 32 → idAt j ≠ idAt k) := by
  constructor
  · intro k hk
    rw [idAt_closed]
    unfold int32_wrap
    omega
  · intro j k hjk hwin h
    rw [idAt_closed, idAt_closed] at h
    unfold int32_wrap at h
    have hj' : (j : Int) < (k : Int) := by exact_mod_cast hjk
    have hk' : (k : Int) < (j : Int) + 2 ^ 32 := by exact_mod_cast hwin
    omega

/-- Witness for `alloc_ids_consecutive_before_wrap`: the first id is 1 and
differs from the second. -/
theorem alloc_ids_consecutive_before_wrap_witness :
    idAt 0 = 1 ∧ idAt 0 ≠ idAt 1 := by
  constructor
  · have h := alloc_ids_consecutive_before_wrap.1 0 (by norm_num)
    simpa using h
  · exact alloc_ids_consecutive_before_wrap.2 0 1 (by norm_num) (by norm_num)

/-! ### Alignment validation (`calculate_aligned_memory_size`, `mem_sentry.cc:43`)

`sizeof(void*)` is 8 on the 64-bit target.  The failing `assert` is
modelled as `Except.error`. -/

/-- Embeds `calculate_aligned_memory_size`: clamp the requested alignment up to
`sizeof(void*)`, then `assert` that the clamped value is a power of two
(checked bitwise as `size > 0 && (size & (size - 1)) == 0`). -/
def calculate_aligned_memory_size (alignment : Nat) : Except Unit Nat :=
  let size := alignment
  let size2 := if size < 8 then 8 else size
  let isPowerOf2 : Bool := decide (0 < size2) && ((size2 &&& (size2 - 1)) == 0)
  if isPowerOf2 then Except.ok size2 else Except.error ()

theorem land_pred_eq_zero_of_pow2 (k : Nat) : 2 ^ k &&& (2 ^ k - 1) = 0 := by
  rw [Nat.and_pow_two_sub_one_eq_mod, Nat.mod_self]

theorem pow2_of_land_pred_eq_zero :
    ∀ a, 0 < a → a &&& (a - 1) = 0 → ∃ k, a = 2 ^ k := by
  intro a
  induction a using Nat.strong_induction_on with
  | _ a ih =>
    intro ha h
    have hdiv : (a &&& (a - 1)) / 2 = a / 2 &&& (a - 1) / 2 := Nat.and_div_two
    have h2 : a / 2 &&& (a - 1) / 2 = 0 := by
      rw [← hdiv, h]
    rcases Nat.even_or_odd a with he | ho
    · obtain ⟨b, hb⟩ := he
      have hbpos : 0 < b := by omega
      have ha2 : a / 2 = b := by omega
      have ha3 : (a - 1) / 2 = b - 1 := by omega
      rw [ha2, ha3] at h2
      obtain ⟨k, hk⟩ := ih b (by omega) hbpos h2
      exact ⟨k + 1, by rw [pow_succ]; omega⟩
    · obtain ⟨b, hb⟩ := ho
      have ha2 : a / 2 = b := by omega
      have ha3 : (a - 1) / 2 = b := by omega
      rw [ha2, ha3, Nat.and_self] at h2
      exact ⟨0, by omega⟩

/-- C8 counterexample: alignment 4 is smaller than the pointer size, so the
claim demands an immediate contract violation, but the code silently
clamps it up to 8 and succeeds. -/
theorem small_alignment_clamped_not_rejected :
    calculate_aligned_memory_size 4 = Except.ok 8 ∧ (4 : Nat) < 8 := by
  exact ⟨rfl, by decide⟩

/-- C8 (amended): the aligned path first clamps any alignment smaller than
the pointer size up to 8 (no failure), and only then asserts the
power-of-two property; consequently `calculate_aligned_memory_size` fails
with a contract violation exactly for the alignments that exceed 8 and are
not powers of two. -/
theorem alignment_violation_iff (a : Nat) :
    calculate_aligned_memory_size a = Except.error () ↔ (8 < a ∧ ¬ ∃ k, a = 2 ^ k) := by
  by_cases h8 : a < 8
  · have hval : calculate_aligned_memory_size a = Except.ok 8 := by
      simp only [calculate_aligned_memory_size, if_pos h8]
      rfl
    rw [hval]
    constructor
    · intro hcontra
      exact Except.noConfusion hcontra
    · rintro ⟨hlt, -⟩
      exact absurd hlt (by omega)
  · have hle : 8 ≤ a := Nat.le_of_not_lt h8
    have hpos : 0 < a := by omega
    have hunfold : calculate_aligned_memory_size a
        = if (decide (0 < a) && ((a &&& (a - 1)) == 0)) = true then Except.ok a
          else Except.error () := by
      simp only [calculate_aligned_memory_size, if_neg h8]
    by_cases hz : a &&& (a - 1) = 0
    · have hcond : (decide (0 < a) && ((a &&& (a - 1)) == 0)) = true := by
        simp [hpos, hz]
      rw [hunfold, if_pos hcond]
      obtain ⟨k, hk⟩ := pow2_of_land_pred_eq_zero a hpos hz
      constructor
      · intro hcontra
        exact Except.noConfusion hcontra
      · rintro ⟨-, hnp⟩
        exact absurd ⟨k, hk⟩ hnp
    · have hcond : ¬ ((decide (0 < a) && ((a &&& (a - 1)) == 0)) = true) := by
        simp [hpos, hz]
      rw [hunfold, if_neg hcond]
      constructor
      · intro hval2
        refine ⟨?_, ?_⟩
        · rcases Nat.lt_or_ge 8 a with hgt | hle2
          · exact hgt
          · have ha8 : a = 8 := by omega
            subst ha8
            have h87 : (8 : Nat) &&& 7 = 0 := by
              have h3 := land_pred_eq_zero_of_pow2 3
              norm_num at h3
              exact h3
            exact absurd h87 hz
        · rintro ⟨k, hk⟩
          subst hk
          exact hz (land_pred_eq_zero_of_pow2 k)
      · intro hrhs
        rfl

/-- Witness for `alignment_violation_iff`: alignment 12 (greater than 8,
not a power of two) is rejected with a contract violation. -/
theorem alignment_violation_iff_witness :
    calculate_aligned_memory_size 12 = Except.error () := by
  refine (alignment_violation_iff 12).mpr ⟨by norm_num, ?_⟩
  rintro ⟨k, hk⟩
  have hk4 : k < 4 := by
    by_contra hge
    push_neg at hge
    have h16 : (2 : Nat) ^ 4 ≤ 2 ^ k := Nat.pow_le_pow_right (by norm_num) hge
    norm_num at h16
    omega
  interval_cases k <;> norm_num at hk

/-! ### Allocation under system-allocator failure (`mem_sentry.cc:70/104`)

`mallocResult` is the raw pointer returned by `malloc`; `none` models a
null return.  Neither `sentry_allocate` nor `sentry_allocate_aligned`
tests the pointer: both immediately store the header fields (and the end
marker) through addresses derived from it.  A store through a null-derived
address is surfaced by the embedding as `.error .nullWrite` — the source
has no path that returns null to the caller. -/

inductive AllocError where
  | nullWrite
deriving DecidableEq, Repr

/-- Observable result of a successful `sentry_allocate`. -/
structure AllocOk where
  userPtr : Nat
  header : AllocHeader
  endMarkerAddr : Nat
deriving Repr

/-- Embeds `sentry_allocate` (`mem_sentry.cc:70`): promote size 0 to 1, request
`size + sizeof(AllocHeader) + sizeof(int)` bytes, write the header at the
raw base (null-checked by NOBODY — the write itself faults on null),
register with the heap, write the end marker, return `raw + header_size`. -/
def sentry_allocate (size : Nat) (mallocResult : Option Nat) (heapId allocId : Nat) :
    Except AllocError AllocOk :=
  let size := if size = 0 then 1 else size
  match mallocResult with
  | none => Except.error .nullWrite
  | some pMem =>
    let pHeader := set_alloc_header size 0 pMem heapId allocId
    Except.ok
      { userPtr := pMem + header_size
        header := pHeader
        endMarkerAddr := pMem + header_size + size }

/-- Observable result of a successful `sentry_allocate_aligned`. -/
structure AlignedAlloc where
  userPtr : Nat
  headerAddr : Nat
  endMarkerAddr : Nat
  header : AllocHeader
deriving Repr

/-- Embeds `sentry_allocate_aligned` (`mem_sentry.cc:104`): promote size 0 to 1,
round `rawAddr + header_size` up to the alignment with
`(potential + mask) & ~mask` on `uintptr_t` (64-bit wraparound is the
explicit `% UINTPTR_MOD`; the complement of `mask` within 64 bits is
`(UINTPTR_MOD - 1) - mask`), write the end marker at `pMem + size`, place
the header immediately below `pMem`, and store the original raw pointer in
the header.  As in the unaligned path there is no null check. -/
def sentry_allocate_aligned (size alignment : Nat) (mallocResult : Option Nat)
    (heapId allocId : Nat) : Except AllocError AlignedAlloc :=
  let size := if size = 0 then 1 else size
  match mallocResult with
  | none => Except.error .nullWrite
  | some pOriginalMem =>
    let rawAddr := pOriginalMem
    let potential_data_start := rawAddr + header_size
    let mask := alignment - 1
    let aligned_data_addr :=
      ((potential_data_start + mask) % UINTPTR_MOD) &&& ((UINTPTR_MOD - 1) - mask)
    let pMem := aligned_data_addr
    let pHeader := set_alloc_header size alignment pOriginalMem heapId allocId
    Except.ok
      { userPtr := pMem
        headerAddr := pMem - header_size
        endMarkerAddr := pMem + size
        header := pHeader }

/-- C9: when the system allocator fails (malloc returns null) neither
allocation path propagates null to the caller; both proceed to write the
allocation header (and end marker) through the null-derived address — an
invalid store, not the graceful failure the claim describes. -/
theorem allocate_null_malloc_writes_header :
    sentry_allocate 16 none 0 1 = Except.error .nullWrite
    ∧ sentry_allocate_aligned 16 16 none 0 1 = Except.error .nullWrite := by
  exact ⟨rfl, rfl⟩

/-! ### Layout of the aligned path (claim C3) -/

theorem land_two_pow_complement (y k : Nat) (hk : k ≤ 64) (hy : y < 2 ^ 64) :
    y &&& (2 ^ 64 - 2 ^ k) = 2 ^ k * (y / 2 ^ k) := by
  apply Nat.eq_of_testBit_eq
  intro i
  have hmask : (2 : Nat) ^ 64 - 2 ^ k = 2 ^ k * (2 ^ (64 - k) - 1) := by
    rw [Nat.mul_sub, Nat.mul_one, ← pow_add]
    congr 2
    omega
  rw [Nat.testBit_and, hmask, Nat.testBit_mul_pow_two, Nat.testBit_mul_pow_two,
    Nat.testBit_two_pow_sub_one, ← Nat.shiftRight_eq_div_pow, Nat.testBit_shiftRight]
  by_cases hik : k ≤ i
  · have hky : k + (i - k) = i := by omega
    rw [hky]
    by_cases hi64 : i < 64
    · have hlt : i - k < 64 - k := by omega
      simp [hik, hlt, ge_iff_le]
    · have hge64 : (2 : Nat) ^ 64 ≤ 2 ^ i := Nat.pow_le_pow_right (by norm_num) (by omega)
      have hfalse : y.testBit i = false :=
        Nat.testBit_lt_two_pow (lt_of_lt_of_le hy hge64)
      have hnlt : ¬ (i - k < 64 - k) := by omega
      simp [hik, hnlt, hfalse, ge_iff_le]
  · simp [hik, ge_iff_le]

/-- C3: on the aligned path with a nonzero size `s`, a power-of-two
alignment `A = 2^k`, and a raw base `r` whose block fits the address space,
the returned user pointer is the smallest `A`-aligned address at or above
`raw_base + sizeof(header)`; the header sits immediately before the user
pointer; the header records the original raw base; and the end marker is
written at `user pointer + s`. -/
theorem aligned_allocation_layout (s A k r heapId allocId : Nat)
    (hs : 0 < s) (hA : A = 2 ^ k) (hk : k ≤ 64)
    (hfit : r + header_size + (A - 1) < 2 ^ 64) :
    ∃ res : AlignedAlloc,
      sentry_allocate_aligned s A (some r) heapId allocId = Except.ok res
      ∧ res.userPtr % A = 0
      ∧ r + header_size ≤ res.userPtr
      ∧ (∀ q, q % A = 0 → r + header_size ≤ q → res.userPtr ≤ q)
      ∧ res.headerAddr + header_size = res.userPtr
      ∧ res.header.p_OriginalAddress = r
      ∧ res.endMarkerAddr = res.userPtr + s := by
  subst hA
  have hs0 : ¬ s = 0 := by omega
  have hp1 : (1 : Nat) ≤ 2 ^ k := Nat.one_le_two_pow
  have hple : (2 : Nat) ^ k ≤ 2 ^ 64 := Nat.pow_le_pow_right (by norm_num) hk
  set x := r + header_size with hx
  set pM := ((x + (2 ^ k - 1)) % UINTPTR_MOD) &&& ((UINTPTR_MOD - 1) - (2 ^ k - 1)) with hpMdef
  have heval : sentry_allocate_aligned s (2 ^ k) (some r) heapId allocId
      = Except.ok
          { userPtr := pM
            headerAddr := pM - header_size
            endMarkerAddr := pM + s
            header := set_alloc_header s (2 ^ k) r heapId allocId } := by
    simp only [sentry_allocate_aligned, if_neg hs0, hpMdef, hx]
  have hmod : (x + (2 ^ k - 1)) % UINTPTR_MOD = x + (2 ^ k - 1) := by
    have : x + (2 ^ k - 1) < 2 ^ 64 := hfit
    simp only [UINTPTR_MOD]
    omega
  have hcompl : (UINTPTR_MOD - 1) - (2 ^ k - 1) = 2 ^ 64 - 2 ^ k := by
    simp only [UINTPTR_MOD]
    omega
  have hdm := Nat.div_add_mod (x + (2 ^ k - 1)) (2 ^ k)
  have hmlt : (x + (2 ^ k - 1)) % 2 ^ k < 2 ^ k := Nat.mod_lt _ (by omega)
  set d := (x + (2 ^ k - 1)) / 2 ^ k with hd
  have hpM : pM = 2 ^ k * d := by
    rw [hpMdef, hmod, hcompl]
    exact land_two_pow_complement (x + (2 ^ k - 1)) k hk (by omega)
  have hxle : x ≤ pM := by
    rw [hpM]
    omega
  refine ⟨_, heval, ?_, ?_, ?_, ?_, ?_, ?_⟩
  · show pM % 2 ^ k = 0
    rw [hpM]
    exact Nat.mul_mod_right _ _
  · exact hxle
  · intro q hq hxq
    show pM ≤ q
    have he : 2 ^ k * (q / 2 ^ k) = q := Nat.mul_div_cancel' (Nat.dvd_of_mod_eq_zero hq)
    set e := q / 2 ^ k with hedef
    have hde : d ≤ e := by
      have h1 : x + (2 ^ k - 1) ≤ 2 ^ k * e + (2 ^ k - 1) := by omega
      have h2 : d ≤ (2 ^ k * e + (2 ^ k - 1)) / 2 ^ k := Nat.div_le_div_right h1
      have h3 : (2 ^ k * e + (2 ^ k - 1)) / 2 ^ k = e + (2 ^ k - 1) / 2 ^ k :=
        Nat.mul_add_div (by omega) e (2 ^ k - 1)
      have h4 : (2 ^ k - 1) / 2 ^ k = 0 := Nat.div_eq_of_lt (by omega)
      omega
    rw [hpM, ← he]
    exact Nat.mul_le_mul_left _ hde
  · show pM - header_size + header_size = pM
    have : header_size ≤ pM := by
      simp only [header_size] at *
      omega
    omega
  · rfl
  · rfl

/-- Witness for `aligned_allocation_layout`: size 16, alignment 8, raw
base 1000. -/
theorem aligned_allocation_layout_witness :
    ∃ res : AlignedAlloc,
      sentry_allocate_aligned 16 8 (some 1000) 0 1 = Except.ok res
      ∧ res.userPtr % 8 = 0
      ∧ 1000 + header_size ≤ res.userPtr := by
  obtain ⟨res, h1, h2, h3, -⟩ :=
    aligned_allocation_layout 16 8 3 1000 0 1 (by norm_num) (by norm_num) (by norm_num)
      (by norm_num [header_size])
  exact ⟨res, h1, h2, h3⟩

/-! ### SPSC ring pool (`pool.h`)

Buffers are identified by abstract handles (`Nat`); a slot holds `none`
when the source stores `nullptr`.  The full-mode constructor's
`allocBuffers` loop fills slots `0 … queue_size − 2` with freshly
allocated buffers (modelled by the slot index as handle; the claims under
study concern the queue logic, so buffer allocation is taken to succeed).
Index arithmetic is `size_t` arithmetic: subtraction wraps modulo `2^64`
before the mask is applied. -/

/-- Embeds `RingPool::next_power_of_2` (`pool.h:128`): the classic bit-smear.
Note the `n ≤ 1` early return yields 1, not 2. -/
def next_power_of_2 (n : Nat) : Nat :=
  if n ≤ 1 then 1
  else
    let n1 := n - 1
    let n2 := n1 ||| (n1 >>> 1)
    let n3 := n2 ||| (n2 >>> 2)
    let n4 := n3 ||| (n3 >>> 4)
    let n5 := n4 ||| (n4 >>> 8)
    let n6 := n5 ||| (n5 >>> 16)
    let n7 := n6 ||| (n6 >>> 32)
    n7 + 1

/-- State of a `RingPool`. -/
structure RingPool where
  m_WriteIndex : Nat
  m_ReadIndex : Nat
  m_Queue : List (Option Nat)
  m_QueueSize : Nat
  m_Mask : Nat
  m_Valid : Bool
  m_EmptyQueue : Bool
deriving DecidableEq, Repr

/-- Embeds `RingPool::RingPool` (`pool.h:242`): round the request with
`next_power_of_2`, then apply the (dead — `next_power_of_2` never returns
less than 1) clamp `if (queue_size < 1) queue_size = 2`.  Empty mode: both
indices 0, no buffers.  Full mode: write index `queue_size - 1`, read
index 0, slots `0 … queue_size - 2` populated by `allocBuffers`. -/
def RingPool.construct (empty : Bool) (queue_size : Nat) : RingPool :=
  let qs0 := next_power_of_2 queue_size
  let qs := if qs0 < 1 then 2 else qs0
  if empty then
    { m_WriteIndex := 0, m_ReadIndex := 0
      m_Queue := List.replicate qs none
      m_QueueSize := qs, m_Mask := qs - 1
      m_Valid := true, m_EmptyQueue := true }
  else
    { m_WriteIndex := qs - 1, m_ReadIndex := 0
      m_Queue := (List.range qs).map (fun i => if i < qs - 1 then some i else none)
      m_QueueSize := qs, m_Mask := qs - 1
      m_Valid := true, m_EmptyQueue := false }

/-- Embeds `RingPool::getAvailableBuffers` (`pool.h:152`):
`(currentWrite - currentRead) & m_Mask` in `size_t` arithmetic. -/
def getAvailableBuffers (currentWrite currentRead mask : Nat) : Nat :=
  ((UINTPTR_MOD + currentWrite - currentRead) % UINTPTR_MOD) &&& mask

/-- Embeds `RingPool::pop` (`pool.h:373`): if no buffer is available return null,
otherwise take `queue[read]`, null the slot, and advance the read index
under the mask. -/
def RingPool.pop (p : RingPool) : Option Nat × RingPool :=
  let currentWrite := p.m_WriteIndex
  let currentRead := p.m_ReadIndex
  let buffers := getAvailableBuffers currentWrite currentRead p.m_Mask
  if buffers = 0 then
    (none, p)
  else
    let buffer := p.m_Queue.getD currentRead none
    let queue2 := p.m_Queue.set currentRead none
    let new_index := (currentRead + 1) &&& p.m_Mask
    (buffer, { p with m_Queue := queue2, m_ReadIndex := new_index })

/-- C5: evaluating the code at queue-size request 1.  `next_power_of_2 1`
is 1 and the `< 1` clamp does not fire, so the ring's capacity is 1 — not
the claimed minimum of 2 — and the freshly constructed full-mode pool has
no poppable buffer (usable capacity 0, pop returns null). -/
theorem ring_capacity_request_one_yields_one :
    next_power_of_2 1 = 1
    ∧ (RingPool.construct false 1).m_QueueSize = 1
    ∧ ((RingPool.construct false 1).pop).1 = none := by
  exact ⟨rfl, rfl, rfl⟩

/-! ### Pool chain (`chain.h`) -/

/-- State of a `PoolChain`: the linked nodes head→tail, plus the
queue size captured by the stored pool factory (`chain.h:156` applies
`next_power_of_2` once more before capturing). -/
structure PoolChain where
  pools : List RingPool
  queue_size : Nat
deriving Repr

/-- Embeds `PoolChain::PoolChain` (`chain.h:156`): round the request, store the
factory, construct the first full-mode pool. -/
def PoolChain.construct (queue_size : Nat) : PoolChain :=
  let qs := next_power_of_2 queue_size
  { pools := [RingPool.construct false qs], queue_size := qs }

/-- The head→tail walk of `PoolChain::pop` (`chain.h:262`): pop from the
first pool that yields a buffer. -/
def chainPopGo : List RingPool → Option Nat × List RingPool
  | [] => (none, [])
  | p :: rest =>
    match p.pop with
    | (some b, p2) => (some b, p2 :: rest)
    | (none, p2) =>
      let tailRes := chainPopGo rest
      (tailRes.1, p2 :: tailRes.2)

/-- Embeds `PoolChain::pop` (`chain.h:262`): walk the chain; if every pool is
drained, `addPool` appends a fresh full-mode pool built by the stored
factory (`RingPool(false, queue_size)`) and the result of popping that
tail pool is returned. -/
def PoolChain.pop (c : PoolChain) : Option Nat × PoolChain :=
  match chainPopGo c.pools with
  | (some b, pools2) => (some b, { c with pools := pools2 })
  | (none, pools2) =>
    let newPool := RingPool.construct false c.queue_size
    let popped := newPool.pop
    (popped.1, { c with pools := pools2 ++ [popped.2] })

theorem left_le_lor (a b : Nat) : a ≤ a ||| b :=
  Nat.le_of_testBit (fun i h => by simp [Nat.testBit_or, h])

theorem shiftRight_le_self (a s : Nat) : a >>> s ≤ a := by
  rw [Nat.shiftRight_eq_div_pow]
  exact Nat.div_le_self _ _

theorem next_power_of_2_ge {q : Nat} (h2 : 2 ≤ q) : q ≤ next_power_of_2 q := by
  have hq1 : ¬ q ≤ 1 := by omega
  simp only [next_power_of_2, if_neg hq1]
  set n1 := q - 1 with e1
  set n2 := n1 ||| (n1 >>> 1) with e2
  set n3 := n2 ||| (n2 >>> 2) with e3
  set n4 := n3 ||| (n3 >>> 4) with e4
  set n5 := n4 ||| (n4 >>> 8) with e5
  set n6 := n5 ||| (n5 >>> 16) with e6
  set n7 := n6 ||| (n6 >>> 32) with e7
  have l2 : n1 ≤ n2 := left_le_lor _ _
  have l3 : n2 ≤ n3 := left_le_lor _ _
  have l4 : n3 ≤ n4 := left_le_lor _ _
  have l5 : n4 ≤ n5 := left_le_lor _ _
  have l6 : n5 ≤ n6 := left_le_lor _ _
  have l7 : n6 ≤ n7 := left_le_lor _ _
  omega

theorem next_power_of_2_le {q : Nat} (h64 : q ≤ 2 ^ 64) :
    next_power_of_2 q ≤ 2 ^ 64 := by
  by_cases hq1 : q ≤ 1
  · simp only [next_power_of_2, if_pos hq1]
    norm_num
  · simp only [next_power_of_2, if_neg hq1]
    set n1 := q - 1 with e1
    set n2 := n1 ||| (n1 >>> 1) with e2
    set n3 := n2 ||| (n2 >>> 2) with e3
    set n4 := n3 ||| (n3 >>> 4) with e4
    set n5 := n4 ||| (n4 >>> 8) with e5
    set n6 := n5 ||| (n5 >>> 16) with e6
    set n7 := n6 ||| (n6 >>> 32) with e7
    have b1 : n1 < 2 ^ 64 := by omega
    have b2 : n2 < 2 ^ 64 :=
      Nat.or_lt_two_pow b1 (Nat.lt_of_le_of_lt (shiftRight_le_self _ _) b1)
    have b3 : n3 < 2 ^ 64 :=
      Nat.or_lt_two_pow b2 (Nat.lt_of_le_of_lt (shiftRight_le_self _ _) b2)
    have b4 : n4 < 2 ^ 64 :=
      Nat.or_lt_two_pow b3 (Nat.lt_of_le_of_lt (shiftRight_le_self _ _) b3)
    have b5 : n5 < 2 ^ 64 :=
      Nat.or_lt_two_pow b4 (Nat.lt_of_le_of_lt (shiftRight_le_self _ _) b4)
    have b6 : n6 < 2 ^ 64 :=
      Nat.or_lt_two_pow b5 (Nat.lt_of_le_of_lt (shiftRight_le_self _ _) b5)
    have b7 : n7 < 2 ^ 64 :=
      Nat.or_lt_two_pow b6 (Nat.lt_of_le_of_lt (shiftRight_le_self _ _) b6)
    omega

/-- A freshly constructed full-mode pool with a queue-size request of at
least 2 (and fitting `size_t`) yields a buffer on its first pop. -/
theorem construct_full_pop_isSome (q : Nat) (h2 : 2 ≤ q) (h64 : q ≤ 2 ^ 64) :
    ((RingPool.construct false q).pop).1.isSome := by
  set qs0 := next_power_of_2 q with hqs0
  have hge : 2 ≤ qs0 := le_trans h2 (next_power_of_2_ge h2)
  have hle : qs0 ≤ 2 ^ 64 := next_power_of_2_le h64
  have hclamp : ¬ qs0 < 1 := by omega
  have hconstr : RingPool.construct false q
      = { m_WriteIndex := qs0 - 1, m_ReadIndex := 0
          m_Queue := (List.range qs0).map (fun i => if i < qs0 - 1 then some i else none)
          m_QueueSize := qs0, m_Mask := qs0 - 1
          m_Valid := true, m_EmptyQueue := false } := by
    simp only [RingPool.construct, ← hqs0, if_neg hclamp]
    rfl
  rw [hconstr]
  have havail : getAvailableBuffers (qs0 - 1) 0 (qs0 - 1) = qs0 - 1 := by
    simp only [getAvailableBuffers, UINTPTR_MOD, Nat.sub_zero]
    have hmod : (2 ^ 64 + (qs0 - 1)) % 2 ^ 64 = qs0 - 1 := by
      omega
    rw [hmod, Nat.and_self]
  have hne : ¬ (getAvailableBuffers (qs0 - 1) 0 (qs0 - 1) = 0) := by
    rw [havail]; omega
  simp only [RingPool.pop, if_neg hne]
  have hslot : ((List.range qs0).map
      (fun i => if i < qs0 - 1 then some i else none)).getD 0 none = some 0 := by
    have h0 : 0 < qs0 := by omega
    rw [List.getD_eq_getElem?_getD, List.getElem?_map, List.getElem?_range h0]
    simp only [Option.map_some']
    rw [if_pos (by omega)]
    rfl
  rw [hslot]
  rfl

/-- C6 counterexample: a chain built with queue-size request 1 starts
drained (the single pool holds no buffer), and its `pop` — after walking
the drained chain and appending a fresh pool — still returns null, because
the fresh full-mode pool of capacity 1 holds no buffer either. -/
theorem chain_pop_null_when_capacity_one :
    (∀ p ∈ (PoolChain.construct 1).pools, (RingPool.pop p).1 = none)
    ∧ ((PoolChain.construct 1).pop).1 = none := by
  constructor
  · intro p hp
    have hp2 : p = RingPool.construct false 1 := by
      simpa [PoolChain.construct] using hp
    subst hp2
    rfl
  · rfl

theorem chainPopGo_none {l : List RingPool}
    (h : ∀ p ∈ l, (RingPool.pop p).1 = none) : (chainPopGo l).1 = none := by
  induction l with
  | nil => rfl
  | cons p rest ih =>
    have hp : (RingPool.pop p).1 = none := h p (List.mem_cons_self p rest)
    have hrest : (chainPopGo rest).1 = none :=
      ih (fun q hq => h q (List.mem_cons_of_mem p hq))
    cases hpop : RingPool.pop p with
    | mk b p2 =>
      rw [hpop] at hp
      have hb : b = none := hp
      subst hb
      simp only [chainPopGo, hpop]
      exact hrest

/-- C6 (amended): for every pool chain whose per-pool queue size is at
least 2 (and fits `size_t`), if every current ring pool is drained then
`pop` appends a fresh full-mode pool and pops from it, and that pop
returns a non-null buffer handle.  (With a queue-size request of 1 — see
the counterexample — the fresh pool has usable capacity 0 and `pop`
returns null.) -/
theorem chain_pop_nonnull_after_drain (c : PoolChain)
    (hqs : 2 ≤ c.queue_size) (h64 : c.queue_size ≤ 2 ^ 64)
    (hdrained : ∀ p ∈ c.pools, (RingPool.pop p).1 = none) :
    ((PoolChain.pop c).1).isSome := by
  have hwalk : (chainPopGo c.pools).1 = none := chainPopGo_none hdrained
  cases hsplit : chainPopGo c.pools with
  | mk r pools2 =>
    rw [hsplit] at hwalk
    have hr : r = none := hwalk
    subst hr
    simp only [PoolChain.pop, hsplit]
    exact construct_full_pop_isSome c.queue_size hqs h64

/-- Witness for `chain_pop_nonnull_after_drain`: the chain built with
queue-size request 2, after popping its single pre-populated buffer, is
drained — and the next pop succeeds. -/
theorem chain_pop_nonnull_after_drain_witness :
    ((PoolChain.pop ((PoolChain.construct 2).pop).2).1).isSome := by
  apply chain_pop_nonnull_after_drain
  · decide
  · decide
  · decide

/-! ### Hierarchical aggregation (`Heap::dfs` / `Heap::GetTotalHH`, `heap.cc:151`)

The heap graph is a finite directed graph: heaps are `Fin n`, `adj` is the
adjacency vector `m_AdjHeaps`, and `f` is the per-heap quantity the
traversal accumulates (`GetTotal` for `GetTotalHH`).  The C++ recursion
  `dfs(cur, visited, val, func)`:
    if cur ∈ visited return; visited.insert(cur); val += f cur;
    for h in adj cur: dfs(h, visited, val, func)
carries the visited `unordered_set` and accumulator by reference; the
embedding threads the pair explicitly.  The C++ recursion is unbounded
but every productive call inserts a fresh heap, so any fuel exceeding the
number of heaps is equivalent; `GetTotalHH` runs it with fuel `n + 1`. -/

/-- The body of `Heap::dfs`, fuelled. -/
def dfsAux {n : Nat} (adj : Fin n → List (Fin n)) (f : Fin n → Nat) :
    Nat → Fin n → Finset (Fin n) × Nat → Finset (Fin n) × Nat
  | 0, _, st => st
  | fuel + 1, u, st =>
    if u ∈ st.1 then st
    else (adj u).foldl (fun s v => dfsAux adj f fuel v s) (insert u st.1, st.2 + f u)

/-- The `for` loop of `Heap::dfs` over an adjacency list. -/
def dfsList {n : Nat} (adj : Fin n → List (Fin n)) (f : Fin n → Nat)
    (fuel : Nat) (l : List (Fin n)) (st : Finset (Fin n) × Nat) :
    Finset (Fin n) × Nat :=
  l.foldl (fun s v => dfsAux adj f fuel v s) st

/-- Embeds `Heap::GetTotalHH` (`heap.cc:166`): run the DFS from the receiver with
an empty visited set and accumulator 0, summing `f` (= `GetTotal`). -/
def GetTotalHH {n : Nat} (adj : Fin n → List (Fin n)) (f : Fin n → Nat)
    (root : Fin n) : Nat :=
  (dfsAux adj f (n + 1) root (∅, 0)).2

section DfsProofs

variable {n : Nat} (adj : Fin n → List (Fin n)) (f : Fin n → Nat)

theorem dfsAux_zero (u : Fin n) (st : Finset (Fin n) × Nat) :
    dfsAux adj f 0 u st = st := rfl

theorem dfsAux_succ (fuel : Nat) (u : Fin n) (st : Finset (Fin n) × Nat) :
    dfsAux adj f (fuel + 1) u st
      = if u ∈ st.1 then st
        else dfsList adj f fuel (adj u) (insert u st.1, st.2 + f u) := rfl

theorem dfsList_nil (fuel : Nat) (st : Finset (Fin n) × Nat) :
    dfsList adj f fuel [] st = st := rfl

theorem dfsList_cons (fuel : Nat) (v : Fin n) (vs : List (Fin n))
    (st : Finset (Fin n) × Nat) :
    dfsList adj f fuel (v :: vs) st = dfsList adj f fuel vs (dfsAux adj f fuel v st) := rfl

theorem dfsList_mono_of (fuel : Nat)
    (H : ∀ u st, st.1 ⊆ (dfsAux adj f fuel u st).1) :
    ∀ (l : List (Fin n)) (st), st.1 ⊆ (dfsList adj f fuel l st).1 := by
  intro l
  induction l with
  | nil =>
    intro st
    rw [dfsList_nil]
  | cons v vs ih =>
    intro st
    rw [dfsList_cons]
    exact (H v st).trans (ih _)

theorem dfsAux_mono : ∀ (fuel : Nat) (u : Fin n) (st), st.1 ⊆ (dfsAux adj f fuel u st).1 := by
  intro fuel
  induction fuel with
  | zero =>
    intro u st
    rw [dfsAux_zero]
  | succ fuel ih =>
    intro u st
    rw [dfsAux_succ]
    by_cases hu : u ∈ st.1
    · rw [if_pos hu]
    · rw [if_neg hu]
      exact (Finset.subset_insert u st.1).trans
        (dfsList_mono_of adj f fuel ih (adj u) (insert u st.1, st.2 + f u))

theorem dfsList_mono (fuel : Nat) (l : List (Fin n)) (st : Finset (Fin n) × Nat) :
    st.1 ⊆ (dfsList adj f fuel l st).1 :=
  dfsList_mono_of adj f fuel (dfsAux_mono adj f fuel) l st

/-- Sum of `f` over a finite set of heaps. -/
def SumOf {n : Nat} (f : Fin n → Nat) (s : Finset (Fin n)) : Nat := ∑ x in s, f x

theorem dfsList_sum_of (fuel : Nat)
    (H : ∀ u st, (dfsAux adj f fuel u st).2 + SumOf f st.1
      = st.2 + SumOf f (dfsAux adj f fuel u st).1) :
    ∀ l st, (dfsList adj f fuel l st).2 + SumOf f st.1
      = st.2 + SumOf f (dfsList adj f fuel l st).1 := by
  intro l
  induction l with
  | nil =>
    intro st
    rw [dfsList_nil]
  | cons v vs ih =>
    intro st
    rw [dfsList_cons]
    have h1 := H v st
    have h2 := ih (dfsAux adj f fuel v st)
    omega

theorem dfsAux_sum : ∀ (fuel : Nat) (u : Fin n) (st),
    (dfsAux adj f fuel u st).2 + SumOf f st.1
      = st.2 + SumOf f (dfsAux adj f fuel u st).1 := by
  intro fuel
  induction fuel with
  | zero =>
    intro u st
    rw [dfsAux_zero]
  | succ fuel ih =>
    intro u st
    rw [dfsAux_succ]
    by_cases hu : u ∈ st.1
    · rw [if_pos hu]
    · rw [if_neg hu]
      have h1 := dfsList_sum_of adj f fuel ih (adj u) (insert u st.1, st.2 + f u)
      dsimp only at h1
      have h2 : SumOf f (insert u st.1) = f u + SumOf f st.1 := by
        simp only [SumOf]
        rw [Finset.sum_insert hu]
      omega

theorem card_sdiff_mono {s t : Finset (Fin n)} (h : s ⊆ t) :
    (Finset.univ \ t).card ≤ (Finset.univ \ s).card :=
  Finset.card_le_card (Finset.sdiff_subset_sdiff (Finset.Subset.refl _) h)

theorem dfsAux_visits (fuel : Nat) (u : Fin n) (st : Finset (Fin n) × Nat)
    (hcard : (Finset.univ \ st.1).card < fuel) : u ∈ (dfsAux adj f fuel u st).1 := by
  match fuel with
  | 0 => exact absurd hcard (Nat.not_lt_zero _)
  | fuel + 1 =>
    rw [dfsAux_succ]
    by_cases hu : u ∈ st.1
    · rw [if_pos hu]
      exact hu
    · rw [if_neg hu]
      exact dfsList_mono adj f fuel _ _ (Finset.mem_insert_self u st.1)

theorem dfsList_visits (fuel : Nat) : ∀ (l : List (Fin n)) (st : Finset (Fin n) × Nat),
    (Finset.univ \ st.1).card < fuel → ∀ v ∈ l, v ∈ (dfsList adj f fuel l st).1 := by
  intro l
  induction l with
  | nil =>
    intro st hcard v hv
    cases hv
  | cons w vs ih =>
    intro st hcard v hv
    rw [dfsList_cons]
    rcases List.mem_cons.mp hv with h | h
    · subst h
      exact dfsList_mono adj f fuel vs _ (dfsAux_visits adj f fuel v st hcard)
    · exact ih _ (lt_of_le_of_lt (card_sdiff_mono (dfsAux_mono adj f fuel w st)) hcard) v h

theorem dfsList_closed_of (fuel : Nat)
    (H : ∀ u st, (Finset.univ \ st.1).card < fuel →
      ∀ a ∈ (dfsAux adj f fuel u st).1, a ∉ st.1 →
        ∀ b ∈ adj a, b ∈ (dfsAux adj f fuel u st).1) :
    ∀ l st, (Finset.univ \ st.1).card < fuel →
      ∀ a ∈ (dfsList adj f fuel l st).1, a ∉ st.1 →
        ∀ b ∈ adj a, b ∈ (dfsList adj f fuel l st).1 := by
  intro l
  induction l with
  | nil =>
    intro st hcard a ha hnotin b hb
    rw [dfsList_nil] at ha
    exact absurd ha hnotin
  | cons v vs ih =>
    intro st hcard a ha hnotin b hb
    rw [dfsList_cons] at ha ⊢
    have hcard1 : (Finset.univ \ (dfsAux adj f fuel v st).1).card < fuel :=
      lt_of_le_of_lt (card_sdiff_mono (dfsAux_mono adj f fuel v st)) hcard
    by_cases hmem : a ∈ (dfsAux adj f fuel v st).1
    · exact dfsList_mono adj f fuel vs _ (H v st hcard a hmem hnotin b hb)
    · exact ih _ hcard1 a ha hmem b hb

theorem dfsAux_closed : ∀ (fuel : Nat) (u : Fin n) (st),
    (Finset.univ \ st.1).card < fuel →
    ∀ a ∈ (dfsAux adj f fuel u st).1, a ∉ st.1 →
      ∀ b ∈ adj a, b ∈ (dfsAux adj f fuel u st).1 := by
  intro fuel
  induction fuel with
  | zero =>
    intro u st hcard
    exact absurd hcard (Nat.not_lt_zero _)
  | succ fuel ih =>
    intro u st hcard a ha hnotin b hb
    rw [dfsAux_succ] at ha ⊢
    by_cases hu : u ∈ st.1
    · rw [if_pos hu] at ha ⊢
      exact absurd ha hnotin
    · rw [if_neg hu] at ha ⊢
      have hins : Finset.univ \ insert u st.1 = (Finset.univ \ st.1).erase u := by
        ext y
        simp only [Finset.mem_sdiff, Finset.mem_insert, Finset.mem_erase, Finset.mem_univ,
          true_and]
        tauto
      have hu2 : u ∈ Finset.univ \ st.1 :=
        Finset.mem_sdiff.mpr ⟨Finset.mem_univ u, hu⟩
      have hcard1 : (Finset.univ \ (insert u st.1, st.2 + f u).1).card < fuel := by
        show (Finset.univ \ insert u st.1).card < fuel
        rw [hins]
        have := Finset.card_erase_lt_of_mem hu2
        omega
      by_cases hau : a = u
      · subst hau
        exact dfsList_visits adj f fuel (adj a) _ hcard1 b hb
      · have hnotin1 : a ∉ (insert u st.1, st.2 + f u).1 := by
          show a ∉ insert u st.1
          simp [Finset.mem_insert, hau, hnotin]
        exact dfsList_closed_of adj f fuel ih (adj u) _ hcard1 a ha hnotin1 b hb

theorem dfsList_sound_of (fuel : Nat)
    (H : ∀ (v : Fin n) st, ∀ x ∈ (dfsAux adj f fuel v st).1,
      x ∈ st.1 ∨ Relation.ReflTransGen (fun a b => b ∈ adj a) v x)
    (u : Fin n) (base : Finset (Fin n)) :
    ∀ (l : List (Fin n)) (st : Finset (Fin n) × Nat),
      (∀ x ∈ st.1, x ∈ base ∨ Relation.ReflTransGen (fun a b => b ∈ adj a) u x) →
      (∀ v ∈ l, Relation.ReflTransGen (fun a b => b ∈ adj a) u v) →
      ∀ x ∈ (dfsList adj f fuel l st).1,
        x ∈ base ∨ Relation.ReflTransGen (fun a b => b ∈ adj a) u x := by
  intro l
  induction l with
  | nil =>
    intro st hst hl x hx
    rw [dfsList_nil] at hx
    exact hst x hx
  | cons v vs ih =>
    intro st hst hl x hx
    rw [dfsList_cons] at hx
    refine ih _ ?_ (fun w hw => hl w (List.mem_cons_of_mem _ hw)) x hx
    intro y hy
    rcases H v st y hy with hyin | hreach
    · exact hst y hyin
    · exact Or.inr (Relation.ReflTransGen.trans (hl v (List.mem_cons_self v vs)) hreach)

theorem dfsAux_sound : ∀ (fuel : Nat) (u : Fin n) (st),
    ∀ x ∈ (dfsAux adj f fuel u st).1,
      x ∈ st.1 ∨ Relation.ReflTransGen (fun a b => b ∈ adj a) u x := by
  intro fuel
  induction fuel with
  | zero =>
    intro u st x hx
    rw [dfsAux_zero] at hx
    exact Or.inl hx
  | succ fuel ih =>
    intro u st x hx
    rw [dfsAux_succ] at hx
    by_cases hu : u ∈ st.1
    · rw [if_pos hu] at hx
      exact Or.inl hx
    · rw [if_neg hu] at hx
      refine dfsList_sound_of adj f fuel ih u st.1 (adj u) _ ?_ ?_ x hx
      · intro y hy
        rcases Finset.mem_insert.mp hy with h | h
        · subst h
          exact Or.inr Relation.ReflTransGen.refl
        · exact Or.inl h
      · intro v hv
        exact Relation.ReflTransGen.single hv

end DfsProofs

/-- The worked hierarchy example: A (0) ↔ B (1), A → C (2), one 4-byte
allocation on each heap. -/
def exampleAdj : Fin 3 → List (Fin 3) := fun i =>
  if i = 0 then [1, 2] else if i = 1 then [0] else []

/-- Every example heap reports 4 bytes. -/
def exampleTotal : Fin 3 → Nat := fun _ => 4

/-- C7: `GetTotalHH` returns the sum of the per-heap totals over exactly
the set of heaps reachable from the receiver along outgoing edges — each
reachable heap counted exactly once (the sum ranges over a `Finset`),
cycles and duplicate adjacency entries notwithstanding; on the concrete
A↔B, A→C example with 4 bytes each, A and B return 12 and C returns 4. -/
theorem GetTotalHH_sums_reachable_once :
    (∀ (n : Nat) (adj : Fin n → List (Fin n)) (f : Fin n → Nat) (root : Fin n),
      ∃ s : Finset (Fin n),
        (∀ x, x ∈ s ↔ Relation.ReflTransGen (fun a b => b ∈ adj a) root x)
        ∧ GetTotalHH adj f root = ∑ x in s, f x)
    ∧ GetTotalHH exampleAdj exampleTotal 0 = 12
    ∧ GetTotalHH exampleAdj exampleTotal 1 = 12
    ∧ GetTotalHH exampleAdj exampleTotal 2 = 4 := by
  refine ⟨?_, by decide, by decide, by decide⟩
  intro n adj f root
  have hcard : (Finset.univ \ ((∅, 0) : Finset (Fin n) × Nat).1).card < n + 1 := by
    show (Finset.univ \ (∅ : Finset (Fin n))).card < n + 1
    rw [Finset.sdiff_empty, Finset.card_univ, Fintype.card_fin]
    omega
  refine ⟨(dfsAux adj f (n + 1) root (∅, 0)).1, ?_, ?_⟩
  · intro x
    constructor
    · intro hx
      rcases dfsAux_sound adj f (n + 1) root (∅, 0) x hx with h | h
      · exact absurd h (Finset.not_mem_empty x)
      · exact h
    · intro hreach
      induction hreach with
      | refl =>
        exact dfsAux_visits adj f (n + 1) root (∅, 0) hcard
      | tail hab hbc ih =>
        exact dfsAux_closed adj f (n + 1) root (∅, 0) hcard _ ih
          (Finset.not_mem_empty _) _ hbc
  · have hsum := dfsAux_sum adj f (n + 1) root (∅, 0)
    have hempty : SumOf f ((∅, 0) : Finset (Fin n) × Nat).1 = 0 := by
      show SumOf f (∅ : Finset (Fin n)) = 0
      simp [SumOf]
    rw [hempty] at hsum
    show (dfsAux adj f (n + 1) root (∅, 0)).2 = _
    have : SumOf f (dfsAux adj f (n + 1) root (∅, 0)).1
        = ∑ x in (dfsAux adj f (n + 1) root (∅, 0)).1, f x := rfl
    omega

end MemSentry
